import Mathlib

/-!
Verification of the GeoRunner quadtree core (package quadtree).

The Go source is shallowly embedded: coordinates become rationals,
the payload becomes an integer identity, the node struct becomes a
two-constructor inductive (leaf = children nil, node = all four children
present), and the potentially non-terminating Insert (pathological
duplicate overflow) becomes a fuel-indexed function returning none when
the fuel runs out.
-/

set_option maxHeartbeats 1000000

namespace GeoRunner

/-- Point: a single point in 2D space with associated data.  The opaque
payload (compared only for equality) is modelled as an integer identity. -/
structure Point where
  x : ℚ
  y : ℚ
  data : ℤ
deriving DecidableEq, Repr

/-- Boundary: a rectangular area given by its center and half extents. -/
structure Boundary where
  x : ℚ
  y : ℚ
  width : ℚ
  height : ℚ
deriving DecidableEq, Repr

/-- Boundary.Contains: semi-open interval membership, inclusive on the
west/south edges and exclusive on the east/north edges. -/
def Boundary.Contains (b : Boundary) (p : Point) : Bool :=
  decide (b.x - b.width ≤ p.x) && decide (p.x < b.x + b.width) &&
  decide (b.y - b.height ≤ p.y) && decide (p.y < b.y + b.height)

/-- Boundary.Intersects: AABB overlap test via the four no-overlap cases. -/
def Boundary.Intersects (b other : Boundary) : Bool :=
  if b.x - b.width ≥ other.x + other.width then false
  else if b.x + b.width ≤ other.x - other.width then false
  else if b.y - b.height ≥ other.y + other.height then false
  else if b.y + b.height ≤ other.y - other.height then false
  else true

/-- The quadtree node.  `leaf` is a node whose four child pointers are nil;
`node` has all four children present (the Go code always sets all four
together in subdivide). -/
inductive QuadTree : Type where
  | leaf (boundary : Boundary) (capacity : ℕ) (points : List Point)
  | node (boundary : Boundary) (capacity : ℕ) (points : List Point)
      (northWest northEast southWest southEast : QuadTree)
deriving DecidableEq, Repr

/-- NewQuadTree: constructor; clamps the capacity to at least 1. -/
def NewQuadTree (boundary : Boundary) (capacity : ℤ) : QuadTree :=
  QuadTree.leaf boundary (if capacity < 1 then (1 : ℤ) else capacity).toNat []

def QuadTree.boundary : QuadTree → Boundary
  | .leaf b _ _ => b
  | .node b _ _ _ _ _ _ => b

def QuadTree.capacity : QuadTree → ℕ
  | .leaf _ c _ => c
  | .node _ c _ _ _ _ _ => c

def QuadTree.points : QuadTree → List Point
  | .leaf _ _ ps => ps
  | .node _ _ ps _ _ _ _ => ps

/-- Boundary of the north-west child created by subdivide. -/
def Boundary.nwChild (b : Boundary) : Boundary :=
  ⟨b.x - b.width / 2, b.y + b.height / 2, b.width / 2, b.height / 2⟩

/-- Boundary of the north-east child created by subdivide. -/
def Boundary.neChild (b : Boundary) : Boundary :=
  ⟨b.x + b.width / 2, b.y + b.height / 2, b.width / 2, b.height / 2⟩

/-- Boundary of the south-west child created by subdivide. -/
def Boundary.swChild (b : Boundary) : Boundary :=
  ⟨b.x - b.width / 2, b.y - b.height / 2, b.width / 2, b.height / 2⟩

/-- Boundary of the south-east child created by subdivide. -/
def Boundary.seChild (b : Boundary) : Boundary :=
  ⟨b.x + b.width / 2, b.y - b.height / 2, b.width / 2, b.height / 2⟩

/-- The four child boundaries of subdivide, in the fixed NW, NE, SW, SE order. -/
def Boundary.childList (b : Boundary) : List Boundary :=
  [b.nwChild, b.neChild, b.swChild, b.seChild]

/-- One step of the insert descent: try the four children in the fixed
NW, NE, SW, SE order, returning on the first success (`ins` is the insert
at the next recursion depth). -/
def tryChildrenWith (ins : QuadTree → Point → Option (Bool × QuadTree))
    (nw ne sw se : QuadTree) (p : Point) :
    Option (Bool × QuadTree × QuadTree × QuadTree × QuadTree) :=
  match ins nw p with
  | none => none
  | some (true, nw') => some (true, nw', ne, sw, se)
  | some (false, nw') =>
    match ins ne p with
    | none => none
    | some (true, ne') => some (true, nw', ne', sw, se)
    | some (false, ne') =>
      match ins sw p with
      | none => none
      | some (true, sw') => some (true, nw', ne', sw', se)
      | some (false, sw') =>
        match ins se p with
        | none => none
        | some (ok, se') => some (ok, nw', ne', sw', se')

/-- The redistribution loop of Insert: move each drained point into the
children, ignoring the per-point result (as the Go loop does). -/
def insertListWith (ins : QuadTree → Point → Option (Bool × QuadTree)) :
    QuadTree → QuadTree → QuadTree → QuadTree → List Point →
    Option (QuadTree × QuadTree × QuadTree × QuadTree)
  | nw, ne, sw, se, [] => some (nw, ne, sw, se)
  | nw, ne, sw, se, p :: rest =>
    match tryChildrenWith ins nw ne sw se p with
    | none => none
    | some (_, nw', ne', sw', se') => insertListWith ins nw' ne' sw' se' rest
termination_by structural _ _ _ _ ps => ps

/-- QuadTree.Insert, fuel-indexed.  `none` means the call did not complete
within `fuel` nested recursive calls (the Go recursion has no termination
guard on pathological duplicate overflow). -/
def QuadTree.Insert : ℕ → QuadTree → Point → Option (Bool × QuadTree)
  | 0, _, _ => none
  | fuel + 1, QuadTree.leaf b c pts, p =>
    if b.Contains p then
      let pts' := pts ++ [p]
      if pts'.length > c then
        match insertListWith (fun t q => QuadTree.Insert fuel t q)
            (NewQuadTree b.nwChild (c : ℤ)) (NewQuadTree b.neChild (c : ℤ))
            (NewQuadTree b.swChild (c : ℤ)) (NewQuadTree b.seChild (c : ℤ)) pts' with
        | none => none
        | some (nw', ne', sw', se') => some (true, QuadTree.node b c [] nw' ne' sw' se')
      else some (true, QuadTree.leaf b c pts')
    else some (false, QuadTree.leaf b c pts)
  | fuel + 1, QuadTree.node b c pts nw ne sw se, p =>
    if b.Contains p then
      match tryChildrenWith (fun t q => QuadTree.Insert fuel t q) nw ne sw se p with
      | none => none
      | some (ok, nw', ne', sw', se') => some (ok, QuadTree.node b c pts nw' ne' sw' se')
    else some (false, QuadTree.node b c pts nw ne sw se)
termination_by structural fuel _ _ => fuel

/-- queryRecursive: prune on no intersection, scan the bucket at a leaf,
recurse into all four children at an internal node. -/
def QuadTree.queryRecursive : QuadTree → Boundary → List Point
  | .leaf b _ pts, rangeRect =>
    if b.Intersects rangeRect then pts.filter (fun p => rangeRect.Contains p) else []
  | .node b _ _ nw ne sw se, rangeRect =>
    if b.Intersects rangeRect then
      nw.queryRecursive rangeRect ++ ne.queryRecursive rangeRect ++
        sw.queryRecursive rangeRect ++ se.queryRecursive rangeRect
    else []
termination_by structural t _ => t

/-- Query: the public entry point; starts from an empty result slice. -/
def QuadTree.Query (t : QuadTree) (rangeRect : Boundary) : List Point :=
  t.queryRecursive rangeRect

/-- queryRecursive with the node state threaded explicitly: every field the
traversal reads is written back, mirroring that the Go code performs no
field assignment during a query.  The accumulator models the `found` slice. -/
def QuadTree.queryRecursiveS : QuadTree → Boundary → List Point → QuadTree × List Point
  | .leaf b c pts, rangeRect, found =>
    if b.Intersects rangeRect then
      (.leaf b c pts, found ++ pts.filter (fun p => rangeRect.Contains p))
    else (.leaf b c pts, found)
  | .node b c pts nw ne sw se, rangeRect, found =>
    if b.Intersects rangeRect then
      let r1 := nw.queryRecursiveS rangeRect found
      let r2 := ne.queryRecursiveS rangeRect r1.2
      let r3 := sw.queryRecursiveS rangeRect r2.2
      let r4 := se.queryRecursiveS rangeRect r3.2
      (.node b c pts r1.1 r2.1 r3.1 r4.1, r4.2)
    else (.node b c pts nw ne sw se, found)
termination_by structural t _ _ => t

/-- The exact-match test used by Remove: data, x and y must all be equal. -/
def matchPoint (pt p : Point) : Bool :=
  decide (pt.data = p.data) && decide (pt.x = p.x) && decide (pt.y = p.y)

/-- The leaf scan of Remove: index of the first exact match, if any. -/
def findMatchIdx : List Point → Point → Option ℕ
  | [], _ => none
  | pt :: rest, p =>
    if matchPoint pt p then some 0 else (findMatchIdx rest p).map (fun i => i + 1)
termination_by structural pts _ => pts

/-- The swap-with-last removal used by Remove at a leaf: overwrite index `i`
with the last element, then drop the last element. -/
def swapPop (pts : List Point) (i : ℕ) (d : Point) : List Point :=
  (pts.set i (pts.getLastD d)).dropLast

/-- QuadTree.Remove: descend to the leaf whose boundary contains the point,
scan for an exact match, and remove it by swap-with-last. -/
def QuadTree.Remove : QuadTree → Point → Bool × QuadTree
  | .leaf b c pts, p =>
    if b.Contains p then
      match findMatchIdx pts p with
      | none => (false, .leaf b c pts)
      | some i => (true, .leaf b c (swapPop pts i p))
    else (false, .leaf b c pts)
  | .node b c pts nw ne sw se, p =>
    if b.Contains p then
      match nw.Remove p with
      | (true, nw') => (true, .node b c pts nw' ne sw se)
      | (false, nw') =>
        match ne.Remove p with
        | (true, ne') => (true, .node b c pts nw' ne' sw se)
        | (false, ne') =>
          match sw.Remove p with
          | (true, sw') => (true, .node b c pts nw' ne' sw' se)
          | (false, sw') =>
            match se.Remove p with
            | (true, se') => (true, .node b c pts nw' ne' sw' se')
            | (false, se') => (false, .node b c pts nw' ne' sw' se')
    else (false, .node b c pts nw ne sw se)
termination_by structural t _ => t

/-- All points stored anywhere in the tree, in bucket order. -/
def QuadTree.allPoints : QuadTree → List Point
  | .leaf _ _ pts => pts
  | .node _ _ pts nw ne sw se =>
    pts ++ nw.allPoints ++ ne.allPoints ++ sw.allPoints ++ se.allPoints

/-- The boundaries of all leaves of the tree. -/
def QuadTree.leafBoundaries : QuadTree → List Boundary
  | .leaf b _ _ => [b]
  | .node _ _ _ nw ne sw se =>
    nw.leafBoundaries ++ ne.leafBoundaries ++ sw.leafBoundaries ++ se.leafBoundaries

/-- Well-formedness of a tree as maintained by the operations: capacity at
least 1; leaf buckets within capacity and inside their boundary; internal
buckets empty; children carrying exactly the subdivide boundaries and the
parent's capacity. -/
def QuadTree.WF : QuadTree → Prop
  | .leaf b c pts => 1 ≤ c ∧ pts.length ≤ c ∧ ∀ p ∈ pts, b.Contains p = true
  | .node b c pts nw ne sw se =>
    1 ≤ c ∧ pts = [] ∧
    nw.boundary = b.nwChild ∧ ne.boundary = b.neChild ∧
    sw.boundary = b.swChild ∧ se.boundary = b.seChild ∧
    nw.capacity = c ∧ ne.capacity = c ∧ sw.capacity = c ∧ se.capacity = c ∧
    nw.WF ∧ ne.WF ∧ sw.WF ∧ se.WF

/-- The bucket-shape part of well-formedness: leaf buckets within capacity,
internal buckets empty. -/
def QuadTree.BucketsOK : QuadTree → Prop
  | .leaf _ c pts => pts.length ≤ c
  | .node _ _ pts nw ne sw se =>
    pts = [] ∧ nw.BucketsOK ∧ ne.BucketsOK ∧ sw.BucketsOK ∧ se.BucketsOK

/-- Trees reachable by a finite sequence of operations from the constructor. -/
inductive Reachable : QuadTree → Prop where
  | new (b : Boundary) (c : ℤ) : Reachable (NewQuadTree b c)
  | ins (t : QuadTree) (p : Point) (fuel : ℕ) (ok : Bool) (t' : QuadTree) :
      Reachable t → QuadTree.Insert fuel t p = some (ok, t') → Reachable t'
  | rem (t : QuadTree) (p : Point) : Reachable t → Reachable (t.Remove p).2

theorem boolFalse {b : Bool} (h : b = true → False) : b = false := by
  cases b with
  | false => rfl
  | true => exact absurd rfl h

theorem contains_iff (b : Boundary) (p : Point) :
    b.Contains p = true ↔
      b.x - b.width ≤ p.x ∧ p.x < b.x + b.width ∧
        b.y - b.height ≤ p.y ∧ p.y < b.y + b.height := by
  simp [Boundary.Contains, and_assoc]

theorem nwChild_contains (b : Boundary) (p : Point) :
    b.nwChild.Contains p = true ↔
      b.x - b.width ≤ p.x ∧ p.x < b.x ∧ b.y ≤ p.y ∧ p.y < b.y + b.height := by
  rw [contains_iff]
  simp only [Boundary.nwChild]
  constructor
  · rintro ⟨h1, h2, h3, h4⟩
    exact ⟨by linarith, by linarith, by linarith, by linarith⟩
  · rintro ⟨h1, h2, h3, h4⟩
    exact ⟨by linarith, by linarith, by linarith, by linarith⟩

theorem neChild_contains (b : Boundary) (p : Point) :
    b.neChild.Contains p = true ↔
      b.x ≤ p.x ∧ p.x < b.x + b.width ∧ b.y ≤ p.y ∧ p.y < b.y + b.height := by
  rw [contains_iff]
  simp only [Boundary.neChild]
  constructor
  · rintro ⟨h1, h2, h3, h4⟩
    exact ⟨by linarith, by linarith, by linarith, by linarith⟩
  · rintro ⟨h1, h2, h3, h4⟩
    exact ⟨by linarith, by linarith, by linarith, by linarith⟩

theorem swChild_contains (b : Boundary) (p : Point) :
    b.swChild.Contains p = true ↔
      b.x - b.width ≤ p.x ∧ p.x < b.x ∧ b.y - b.height ≤ p.y ∧ p.y < b.y := by
  rw [contains_iff]
  simp only [Boundary.swChild]
  constructor
  · rintro ⟨h1, h2, h3, h4⟩
    exact ⟨by linarith, by linarith, by linarith, by linarith⟩
  · rintro ⟨h1, h2, h3, h4⟩
    exact ⟨by linarith, by linarith, by linarith, by linarith⟩

theorem seChild_contains (b : Boundary) (p : Point) :
    b.seChild.Contains p = true ↔
      b.x ≤ p.x ∧ p.x < b.x + b.width ∧ b.y - b.height ≤ p.y ∧ p.y < b.y := by
  rw [contains_iff]
  simp only [Boundary.seChild]
  constructor
  · rintro ⟨h1, h2, h3, h4⟩
    exact ⟨by linarith, by linarith, by linarith, by linarith⟩
  · rintro ⟨h1, h2, h3, h4⟩
    exact ⟨by linarith, by linarith, by linarith, by linarith⟩

theorem nwChild_le (b : Boundary) (p : Point) (h : b.nwChild.Contains p = true) :
    b.Contains p = true := by
  rw [nwChild_contains] at h
  rw [contains_iff]
  obtain ⟨h1, h2, h3, h4⟩ := h
  exact ⟨by linarith, by linarith, by linarith, by linarith⟩

theorem neChild_le (b : Boundary) (p : Point) (h : b.neChild.Contains p = true) :
    b.Contains p = true := by
  rw [neChild_contains] at h
  rw [contains_iff]
  obtain ⟨h1, h2, h3, h4⟩ := h
  exact ⟨by linarith, by linarith, by linarith, by linarith⟩

theorem swChild_le (b : Boundary) (p : Point) (h : b.swChild.Contains p = true) :
    b.Contains p = true := by
  rw [swChild_contains] at h
  rw [contains_iff]
  obtain ⟨h1, h2, h3, h4⟩ := h
  exact ⟨by linarith, by linarith, by linarith, by linarith⟩

theorem seChild_le (b : Boundary) (p : Point) (h : b.seChild.Contains p = true) :
    b.Contains p = true := by
  rw [seChild_contains] at h
  rw [contains_iff]
  obtain ⟨h1, h2, h3, h4⟩ := h
  exact ⟨by linarith, by linarith, by linarith, by linarith⟩

/-- Which child of a subdivided boundary accepts a contained point: exactly
one of the four, selected by comparing against the center. -/
theorem contains_child_cases (b : Boundary) (p : Point) (h : b.Contains p = true) :
    (b.nwChild.Contains p = true ∧ b.neChild.Contains p = false ∧
        b.swChild.Contains p = false ∧ b.seChild.Contains p = false) ∨
      (b.nwChild.Contains p = false ∧ b.neChild.Contains p = true ∧
        b.swChild.Contains p = false ∧ b.seChild.Contains p = false) ∨
      (b.nwChild.Contains p = false ∧ b.neChild.Contains p = false ∧
        b.swChild.Contains p = true ∧ b.seChild.Contains p = false) ∨
      (b.nwChild.Contains p = false ∧ b.neChild.Contains p = false ∧
        b.swChild.Contains p = false ∧ b.seChild.Contains p = true) := by
  rw [contains_iff] at h
  obtain ⟨c1, c2, c3, c4⟩ := h
  rcases lt_or_le p.x b.x with hx | hx <;> rcases lt_or_le p.y b.y with hy | hy
  · refine Or.inr (Or.inr (Or.inl ⟨?_, ?_, ?_, ?_⟩))
    · exact boolFalse fun hh => by
        obtain ⟨_, _, h3, _⟩ := (nwChild_contains b p).mp hh; linarith
    · exact boolFalse fun hh => by
        obtain ⟨h1, _, _, _⟩ := (neChild_contains b p).mp hh; linarith
    · exact (swChild_contains b p).mpr ⟨c1, hx, c3, hy⟩
    · exact boolFalse fun hh => by
        obtain ⟨h1, _, _, _⟩ := (seChild_contains b p).mp hh; linarith
  · refine Or.inl ⟨?_, ?_, ?_, ?_⟩
    · exact (nwChild_contains b p).mpr ⟨c1, hx, hy, c4⟩
    · exact boolFalse fun hh => by
        obtain ⟨h1, _, _, _⟩ := (neChild_contains b p).mp hh; linarith
    · exact boolFalse fun hh => by
        obtain ⟨_, _, _, h4⟩ := (swChild_contains b p).mp hh; linarith
    · exact boolFalse fun hh => by
        obtain ⟨h1, _, _, _⟩ := (seChild_contains b p).mp hh; linarith
  · refine Or.inr (Or.inr (Or.inr ⟨?_, ?_, ?_, ?_⟩))
    · exact boolFalse fun hh => by
        obtain ⟨_, h2, _, _⟩ := (nwChild_contains b p).mp hh; linarith
    · exact boolFalse fun hh => by
        obtain ⟨_, _, h3, _⟩ := (neChild_contains b p).mp hh; linarith
    · exact boolFalse fun hh => by
        obtain ⟨_, h2, _, _⟩ := (swChild_contains b p).mp hh; linarith
    · exact (seChild_contains b p).mpr ⟨hx, c2, c3, hy⟩
  · refine Or.inr (Or.inl ⟨?_, ?_, ?_, ?_⟩)
    · exact boolFalse fun hh => by
        obtain ⟨_, h2, _, _⟩ := (nwChild_contains b p).mp hh; linarith
    · exact (neChild_contains b p).mpr ⟨hx, c2, hy, c4⟩
    · exact boolFalse fun hh => by
        obtain ⟨_, h2, _, _⟩ := (swChild_contains b p).mp hh; linarith
    · exact boolFalse fun hh => by
        obtain ⟨_, _, _, h4⟩ := (seChild_contains b p).mp hh; linarith

/-- Children of a subdivided boundary tile it: the number of children
accepting a point is one inside the parent and zero outside. -/
theorem childList_countP (b : Boundary) (p : Point) :
    b.childList.countP (fun cb => cb.Contains p) =
      if b.Contains p = true then 1 else 0 := by
  by_cases hc : b.Contains p = true
  · rcases contains_child_cases b p hc with ⟨e1, e2, e3, e4⟩ | ⟨e1, e2, e3, e4⟩ |
      ⟨e1, e2, e3, e4⟩ | ⟨e1, e2, e3, e4⟩ <;>
      simp [Boundary.childList, List.countP_cons, e1, e2, e3, e4, hc]
  · have e1 : b.nwChild.Contains p = false :=
      boolFalse fun hh => hc (nwChild_le b p hh)
    have e2 : b.neChild.Contains p = false :=
      boolFalse fun hh => hc (neChild_le b p hh)
    have e3 : b.swChild.Contains p = false :=
      boolFalse fun hh => hc (swChild_le b p hh)
    have e4 : b.seChild.Contains p = false :=
      boolFalse fun hh => hc (seChild_le b p hh)
    simp [Boundary.childList, List.countP_cons, e1, e2, e3, e4, hc]

theorem contains_both_intersects (a other : Boundary) (p : Point)
    (ha : a.Contains p = true) (hb : other.Contains p = true) :
    a.Intersects other = true := by
  rw [contains_iff] at ha hb
  obtain ⟨a1, a2, a3, a4⟩ := ha
  obtain ⟨b1, b2, b3, b4⟩ := hb
  unfold Boundary.Intersects
  rw [if_neg (by push_neg; linarith), if_neg (by push_neg; linarith),
    if_neg (by push_neg; linarith), if_neg (by push_neg; linarith)]

theorem intersects_iff (a other : Boundary) :
    a.Intersects other = true ↔
      ¬(a.x + a.width ≤ other.x - other.width ∨
        other.x + other.width ≤ a.x - a.width ∨
        a.y + a.height ≤ other.y - other.height ∨
        other.y + other.height ≤ a.y - a.height) := by
  unfold Boundary.Intersects
  split_ifs with h1 h2 h3 h4 <;> simp [ge_iff_le] at * <;> first
  | tauto
  | (intros; linarith)

theorem newQuadTree_WF (b : Boundary) (c : ℤ) : (NewQuadTree b c).WF := by
  simp only [NewQuadTree, QuadTree.WF]
  refine ⟨?_, by simp, by simp⟩
  split_ifs with h <;> omega

theorem newQuadTree_capacity (b : Boundary) (c : ℕ) (h : 1 ≤ c) :
    (NewQuadTree b (c : ℤ)).capacity = c := by
  simp only [NewQuadTree, QuadTree.capacity]
  rw [if_neg (by omega)]
  omega

theorem newQuadTree_boundary (b : Boundary) (c : ℤ) : (NewQuadTree b c).boundary = b := rfl

theorem newQuadTree_allPoints (b : Boundary) (c : ℤ) : (NewQuadTree b c).allPoints = [] := rfl

theorem allPoints_contains : ∀ t : QuadTree, t.WF →
    ∀ p ∈ t.allPoints, t.boundary.Contains p = true := by
  intro t
  induction t with
  | leaf b c pts =>
    intro h p hp
    simp only [QuadTree.WF] at h
    exact h.2.2 p hp
  | node b c pts nw ne sw se ihnw ihne ihsw ihse =>
    intro h p hp
    simp only [QuadTree.WF] at h
    obtain ⟨-, hpts, hbnw, hbne, hbsw, hbse, -, -, -, -, wnw, wne, wsw, wse⟩ := h
    subst hpts
    simp only [QuadTree.allPoints, List.nil_append, List.mem_append] at hp
    show b.Contains p = true
    rcases hp with ((hp | hp) | hp) | hp
    · have hh := ihnw wnw p hp
      rw [hbnw] at hh
      exact nwChild_le b p hh
    · have hh := ihne wne p hp
      rw [hbne] at hh
      exact neChild_le b p hh
    · have hh := ihsw wsw p hp
      rw [hbsw] at hh
      exact swChild_le b p hh
    · have hh := ihse wse p hp
      rw [hbse] at hh
      exact seChild_le b p hh

theorem child_if_sum (b : Boundary) (p : Point) :
    ((if b.nwChild.Contains p = true then 1 else 0) +
        (if b.neChild.Contains p = true then 1 else 0) +
        (if b.swChild.Contains p = true then 1 else 0) +
        (if b.seChild.Contains p = true then 1 else 0) : ℕ) =
      if b.Contains p = true then 1 else 0 := by
  by_cases hc : b.Contains p = true
  · rcases contains_child_cases b p hc with ⟨e1, e2, e3, e4⟩ | ⟨e1, e2, e3, e4⟩ |
      ⟨e1, e2, e3, e4⟩ | ⟨e1, e2, e3, e4⟩ <;> simp [e1, e2, e3, e4, hc]
  · have e1 : b.nwChild.Contains p = false := boolFalse fun hh => hc (nwChild_le b p hh)
    have e2 : b.neChild.Contains p = false := boolFalse fun hh => hc (neChild_le b p hh)
    have e3 : b.swChild.Contains p = false := boolFalse fun hh => hc (swChild_le b p hh)
    have e4 : b.seChild.Contains p = false := boolFalse fun hh => hc (seChild_le b p hh)
    simp [e1, e2, e3, e4, hc]

theorem leafBoundaries_countP : ∀ t : QuadTree, t.WF → ∀ p : Point,
    t.leafBoundaries.countP (fun lb => lb.Contains p) =
      if t.boundary.Contains p = true then 1 else 0 := by
  intro t
  induction t with
  | leaf b c pts =>
    intro _ p
    simp [QuadTree.leafBoundaries, QuadTree.boundary, List.countP_cons, List.countP_nil]
  | node b c pts nw ne sw se ihnw ihne ihsw ihse =>
    intro h p
    simp only [QuadTree.WF] at h
    obtain ⟨-, hpts, hbnw, hbne, hbsw, hbse, -, -, -, -, wnw, wne, wsw, wse⟩ := h
    simp only [QuadTree.leafBoundaries, List.countP_append, QuadTree.boundary]
    rw [ihnw wnw p, ihne wne p, ihsw wsw p, ihse wse p, hbnw, hbne, hbsw, hbse]
    exact child_if_sum b p

theorem wf_bucketsOK : ∀ t : QuadTree, t.WF → t.BucketsOK := by
  intro t
  induction t with
  | leaf b c pts =>
    intro h
    simp only [QuadTree.WF] at h
    exact h.2.1
  | node b c pts nw ne sw se ihnw ihne ihsw ihse =>
    intro h
    simp only [QuadTree.WF] at h
    obtain ⟨-, hpts, -, -, -, -, -, -, -, -, wnw, wne, wsw, wse⟩ := h
    exact ⟨hpts, ihnw wnw, ihne wne, ihsw wsw, ihse wse⟩

theorem queryRecursive_eq_filter : ∀ t : QuadTree, t.WF → ∀ r : Boundary,
    t.queryRecursive r = t.allPoints.filter (fun p => r.Contains p) := by
  intro t
  induction t with
  | leaf b c pts =>
    intro h r
    simp only [QuadTree.queryRecursive, QuadTree.allPoints]
    by_cases hi : b.Intersects r = true
    · rw [if_pos hi]
    · rw [if_neg hi]
      symm
      rw [List.filter_eq_nil_iff]
      intro p hp
      simp only [Bool.not_eq_true]
      refine boolFalse fun hcc => ?_
      simp only [QuadTree.WF] at h
      exact hi (contains_both_intersects b r p (h.2.2 p hp) hcc)
  | node b c pts nw ne sw se ihnw ihne ihsw ihse =>
    intro h r
    have hall := allPoints_contains _ h
    simp only [QuadTree.WF] at h
    obtain ⟨-, hpts, -, -, -, -, -, -, -, -, wnw, wne, wsw, wse⟩ := h
    subst hpts
    simp only [QuadTree.queryRecursive, QuadTree.allPoints, List.nil_append]
    by_cases hi : b.Intersects r = true
    · rw [if_pos hi, ihnw wnw r, ihne wne r, ihsw wsw r, ihse wse r]
      simp [List.filter_append]
    · rw [if_neg hi]
      symm
      rw [List.filter_eq_nil_iff]
      intro p hp
      simp only [Bool.not_eq_true]
      refine boolFalse fun hcc => ?_
      have hb := hall p (by simpa [QuadTree.allPoints] using hp)
      simp only [QuadTree.boundary] at hb
      exact hi (contains_both_intersects b r p hb hcc)

theorem matchPoint_iff (q p : Point) : matchPoint q p = true ↔ q = p := by
  cases q with
  | mk qx qy qd =>
    cases p with
    | mk px py pd =>
      simp only [matchPoint, Bool.and_eq_true, decide_eq_true_eq, Point.mk.injEq]
      tauto

theorem findMatchIdx_none : ∀ (pts : List Point) (p : Point),
    findMatchIdx pts p = none ↔ p ∉ pts := by
  intro pts p
  induction pts with
  | nil => simp [findMatchIdx]
  | cons a rest ih =>
    by_cases h : matchPoint a p = true
    · have ha : a = p := (matchPoint_iff a p).mp h
      subst ha
      simp [findMatchIdx, h]
    · have hne : ¬(a = p) := fun hh => h ((matchPoint_iff a p).mpr hh)
      simp only [findMatchIdx, if_neg h, Option.map_eq_none', ih, List.mem_cons]
      constructor
      · rintro h1 (rfl | h2)
        · exact hne rfl
        · exact h1 h2
      · intro h1 h2
        exact h1 (Or.inr h2)

theorem findMatchIdx_some : ∀ (pts : List Point) (p : Point) (i : ℕ),
    findMatchIdx pts p = some i → pts[i]? = some p := by
  intro pts
  induction pts with
  | nil => intro p i h; simp [findMatchIdx] at h
  | cons a rest ih =>
    intro p i h
    by_cases hm : matchPoint a p = true
    · simp only [findMatchIdx, if_pos hm, Option.some.injEq] at h
      subst h
      simp [List.getElem?_cons_zero, (matchPoint_iff a p).mp hm]
    · simp only [findMatchIdx, if_neg hm] at h
      rcases Option.map_eq_some'.mp h with ⟨j, hj, rfl⟩
      simpa [List.getElem?_cons_succ] using ih p j hj

theorem list_last_decomp (l : List Point) (d : Point) (h : l ≠ []) :
    (↑l : Multiset Point) = l.getLastD d ::ₘ ↑l.dropLast := by
  conv_lhs => rw [← List.dropLast_append_getLast h]
  rw [List.getLastD_eq_getLast?, List.getLast?_eq_getLast l h, Option.getD_some,
    Multiset.cons_coe, Multiset.coe_eq_coe]
  exact List.perm_append_singleton _ _

theorem swapPop_multiset : ∀ (pts : List Point) (i : ℕ) (d q : Point),
    pts[i]? = some q → (↑pts : Multiset Point) = q ::ₘ ↑(swapPop pts i d) := by
  intro pts
  induction pts with
  | nil => intro i d q h; simp at h
  | cons a rest ih =>
    intro i d q h
    cases i with
    | zero =>
      simp only [List.getElem?_cons_zero, Option.some.injEq] at h
      subst h
      cases rest with
      | nil => simp [swapPop]
      | cons bb rest' =>
        simp only [swapPop, List.getLastD_cons, List.set_cons_zero, List.dropLast_cons₂,
          ← Multiset.cons_coe]
        rw [Multiset.cons_inj_right, Multiset.cons_coe]
        have hd := list_last_decomp (bb :: rest') a (List.cons_ne_nil bb rest')
        rwa [List.getLastD_cons] at hd
    | succ j =>
      simp only [List.getElem?_cons_succ] at h
      have hrest : rest ≠ [] := by
        rintro rfl
        simp at h
      have hset : rest.set j (rest.getLastD a) ≠ [] := by
        intro hh
        exact hrest ((List.set_eq_nil_iff _ _).mp hh)
      simp only [swapPop, List.getLastD_cons, List.set_cons_succ,
        List.dropLast_cons_of_ne_nil hset, ← Multiset.cons_coe]
      rw [Multiset.cons_swap, Multiset.cons_inj_right]
      exact ih j a q h

/-- The full postcondition of one completed insert call `r` on tree `t`:
well-formedness, frame on boundary and capacity, the returned flag equals
the containment test, and the stored multiset gains exactly `p` on success
and is untouched on failure. -/
def InsOut (t : QuadTree) (p : Point) (r : Bool × QuadTree) : Prop :=
  r.2.WF ∧ r.2.boundary = t.boundary ∧ r.2.capacity = t.capacity ∧
  r.1 = t.boundary.Contains p ∧
  (r.1 = true → (↑r.2.allPoints : Multiset Point) = p ::ₘ ↑t.allPoints) ∧
  (r.1 = false → r.2 = t)

/-- An insert-like function satisfying the insert postcondition whenever it
completes. -/
def InsSpec (ins : QuadTree → Point → Option (Bool × QuadTree)) : Prop :=
  ∀ t p r, t.WF → ins t p = some r → InsOut t p r

/-- The four children of a node over boundary `b` with capacity `c`, in
NW, NE, SW, SE order: right boundaries, right capacities, well-formed. -/
def ChildrenOK (b : Boundary) (c : ℕ)
    (q : QuadTree × QuadTree × QuadTree × QuadTree) : Prop :=
  q.1.boundary = b.nwChild ∧ q.2.1.boundary = b.neChild ∧
  q.2.2.1.boundary = b.swChild ∧ q.2.2.2.boundary = b.seChild ∧
  q.1.capacity = c ∧ q.2.1.capacity = c ∧ q.2.2.1.capacity = c ∧ q.2.2.2.capacity = c ∧
  q.1.WF ∧ q.2.1.WF ∧ q.2.2.1.WF ∧ q.2.2.2.WF

/-- The multiset of all points stored across four sibling subtrees. -/
def fourPoints (q : QuadTree × QuadTree × QuadTree × QuadTree) : Multiset Point :=
  ↑q.1.allPoints + ↑q.2.1.allPoints + ↑q.2.2.1.allPoints + ↑q.2.2.2.allPoints

theorem childrenOK_mk (b : Boundary) (c : ℕ) (nw ne sw se : QuadTree) :
    ChildrenOK b c (nw, ne, sw, se) ↔
      nw.boundary = b.nwChild ∧ ne.boundary = b.neChild ∧
      sw.boundary = b.swChild ∧ se.boundary = b.seChild ∧
      nw.capacity = c ∧ ne.capacity = c ∧ sw.capacity = c ∧ se.capacity = c ∧
      nw.WF ∧ ne.WF ∧ sw.WF ∧ se.WF := Iff.rfl

theorem fourPoints_mk (nw ne sw se : QuadTree) :
    fourPoints (nw, ne, sw, se) =
      ↑nw.allPoints + ↑ne.allPoints + ↑sw.allPoints + ↑se.allPoints := rfl

theorem insOut_mk (t : QuadTree) (p : Point) (ok : Bool) (t' : QuadTree) :
    InsOut t p (ok, t') ↔
      t'.WF ∧ t'.boundary = t.boundary ∧ t'.capacity = t.capacity ∧
      ok = t.boundary.Contains p ∧
      (ok = true → (↑t'.allPoints : Multiset Point) = p ::ₘ ↑t.allPoints) ∧
      (ok = false → t' = t) := Iff.rfl

theorem wf_leaf_mk (b : Boundary) (c : ℕ) (pts : List Point) :
    (QuadTree.leaf b c pts).WF ↔
      1 ≤ c ∧ pts.length ≤ c ∧ ∀ p ∈ pts, b.Contains p = true := Iff.rfl

theorem wf_node_mk (b : Boundary) (c : ℕ) (pts : List Point) (nw ne sw se : QuadTree) :
    (QuadTree.node b c pts nw ne sw se).WF ↔
      1 ≤ c ∧ pts = [] ∧
      nw.boundary = b.nwChild ∧ ne.boundary = b.neChild ∧
      sw.boundary = b.swChild ∧ se.boundary = b.seChild ∧
      nw.capacity = c ∧ ne.capacity = c ∧ sw.capacity = c ∧ se.capacity = c ∧
      nw.WF ∧ ne.WF ∧ sw.WF ∧ se.WF := Iff.rfl

theorem tryChildrenWith_spec (ins : QuadTree → Point → Option (Bool × QuadTree))
    (hins : InsSpec ins) (b : Boundary) (c : ℕ) (nw ne sw se : QuadTree) (p : Point)
    (hch : ChildrenOK b c (nw, ne, sw, se)) (hp : b.Contains p = true)
    (res : Bool × QuadTree × QuadTree × QuadTree × QuadTree)
    (h : tryChildrenWith ins nw ne sw se p = some res) :
    res.1 = true ∧ ChildrenOK b c res.2 ∧
      fourPoints res.2 = p ::ₘ fourPoints (nw, ne, sw, se) := by
  rw [childrenOK_mk] at hch
  obtain ⟨bnw, bne, bsw, bse, cnw, cne, csw, cse, wnw, wne, wsw, wse⟩ := hch
  unfold tryChildrenWith at h
  split at h
  · exact absurd h (by simp)
  · rename_i nw' h1
    have s1 := hins nw p (true, nw') wnw h1
    rw [insOut_mk] at s1
    obtain ⟨w1, b1, c1, f1, m1, -⟩ := s1
    simp only [Option.some.injEq] at h
    subst h
    refine ⟨rfl, ?_, ?_⟩
    · show ChildrenOK b c (nw', ne, sw, se)
      rw [childrenOK_mk]
      exact ⟨b1.trans bnw, bne, bsw, bse, c1.trans cnw, cne, csw, cse, w1, wne, wsw, wse⟩
    · show fourPoints (nw', ne, sw, se) = p ::ₘ fourPoints (nw, ne, sw, se)
      rw [fourPoints_mk, fourPoints_mk, m1 rfl]
      simp only [← Multiset.singleton_add]
      abel
  · rename_i nw' h1
    have s1 := hins nw p (false, nw') wnw h1
    rw [insOut_mk] at s1
    obtain ⟨-, -, -, f1, -, id1⟩ := s1
    have hnw0 : b.nwChild.Contains p = false := by rw [← bnw, ← f1]
    have hid1 : nw' = nw := id1 rfl
    rw [hid1] at h
    split at h
    · exact absurd h (by simp)
    · rename_i ne' h2
      have s2 := hins ne p (true, ne') wne h2
      rw [insOut_mk] at s2
      obtain ⟨w2, b2, c2, f2, m2, -⟩ := s2
      simp only [Option.some.injEq] at h
      subst h
      refine ⟨rfl, ?_, ?_⟩
      · show ChildrenOK b c (nw, ne', sw, se)
        rw [childrenOK_mk]
        exact ⟨bnw, b2.trans bne, bsw, bse, cnw, c2.trans cne, csw, cse, wnw, w2, wsw, wse⟩
      · show fourPoints (nw, ne', sw, se) = p ::ₘ fourPoints (nw, ne, sw, se)
        rw [fourPoints_mk, fourPoints_mk, m2 rfl]
        simp only [← Multiset.singleton_add]
        abel
    · rename_i ne' h2
      have s2 := hins ne p (false, ne') wne h2
      rw [insOut_mk] at s2
      obtain ⟨-, -, -, f2, -, id2⟩ := s2
      have hne0 : b.neChild.Contains p = false := by rw [← bne, ← f2]
      have hid2 : ne' = ne := id2 rfl
      rw [hid2] at h
      split at h
      · exact absurd h (by simp)
      · rename_i sw' h3
        have s3 := hins sw p (true, sw') wsw h3
        rw [insOut_mk] at s3
        obtain ⟨w3, b3, c3, f3, m3, -⟩ := s3
        simp only [Option.some.injEq] at h
        subst h
        refine ⟨rfl, ?_, ?_⟩
        · show ChildrenOK b c (nw, ne, sw', se)
          rw [childrenOK_mk]
          exact ⟨bnw, bne, b3.trans bsw, bse, cnw, cne, c3.trans csw, cse, wnw, wne, w3, wse⟩
        · show fourPoints (nw, ne, sw', se) = p ::ₘ fourPoints (nw, ne, sw, se)
          rw [fourPoints_mk, fourPoints_mk, m3 rfl]
          simp only [← Multiset.singleton_add]
          abel
      · rename_i sw' h3
        have s3 := hins sw p (false, sw') wsw h3
        rw [insOut_mk] at s3
        obtain ⟨-, -, -, f3, -, id3⟩ := s3
        have hsw0 : b.swChild.Contains p = false := by rw [← bsw, ← f3]
        have hid3 : sw' = sw := id3 rfl
        rw [hid3] at h
        split at h
        · exact absurd h (by simp)
        · rename_i ok4 se' h4
          have hse1 : b.seChild.Contains p = true := by
            rcases contains_child_cases b p hp with ⟨e1, -, -, -⟩ | ⟨-, e2, -, -⟩ |
              ⟨-, -, e3, -⟩ | ⟨-, -, -, e4⟩
            · rw [e1] at hnw0; exact absurd hnw0 (by simp)
            · rw [e2] at hne0; exact absurd hne0 (by simp)
            · rw [e3] at hsw0; exact absurd hsw0 (by simp)
            · exact e4
          have s4 := hins se p (ok4, se') wse h4
          rw [insOut_mk] at s4
          obtain ⟨w4, b4, c4, f4, m4, -⟩ := s4
          have hok4 : ok4 = true := by rw [f4, bse]; exact hse1
          subst hok4
          simp only [Option.some.injEq] at h
          subst h
          refine ⟨rfl, ?_, ?_⟩
          · show ChildrenOK b c (nw, ne, sw, se')
            rw [childrenOK_mk]
            exact ⟨bnw, bne, bsw, b4.trans bse, cnw, cne, csw, c4.trans cse, wnw, wne, wsw, w4⟩
          · show fourPoints (nw, ne, sw, se') = p ::ₘ fourPoints (nw, ne, sw, se)
            rw [fourPoints_mk, fourPoints_mk, m4 rfl]
            simp only [← Multiset.singleton_add]
            abel

theorem insertListWith_spec (ins : QuadTree → Point → Option (Bool × QuadTree))
    (hins : InsSpec ins) (b : Boundary) (c : ℕ) :
    ∀ (ps : List Point) (nw ne sw se : QuadTree)
      (res : QuadTree × QuadTree × QuadTree × QuadTree),
      ChildrenOK b c (nw, ne, sw, se) →
      (∀ q ∈ ps, b.Contains q = true) →
      insertListWith ins nw ne sw se ps = some res →
      ChildrenOK b c res ∧ fourPoints res = ↑ps + fourPoints (nw, ne, sw, se) := by
  intro ps
  induction ps with
  | nil =>
    intro nw ne sw se res hch _ h
    simp only [insertListWith, Option.some.injEq] at h
    subst h
    exact ⟨hch, by simp⟩
  | cons q rest ih =>
    intro nw ne sw se res hch hall h
    simp only [insertListWith] at h
    split at h
    · exact absurd h (by simp)
    · rename_i ok1 nw' ne' sw' se' heq
      have ht := tryChildrenWith_spec ins hins b c nw ne sw se q hch (hall q (by simp))
        (ok1, nw', ne', sw', se') heq
      obtain ⟨-, hch', hm⟩ := ht
      obtain ⟨hres, hmm⟩ :=
        ih nw' ne' sw' se' res hch' (fun r hr => hall r (by simp [hr])) h
      refine ⟨hres, ?_⟩
      rw [hmm]
      rw [show fourPoints (nw', ne', sw', se') = q ::ₘ fourPoints (nw, ne, sw, se) from hm]
      simp only [← Multiset.cons_coe, ← Multiset.singleton_add]
      abel

theorem insert_spec : ∀ fuel : ℕ, InsSpec (fun t q => QuadTree.Insert fuel t q) := by
  intro fuel
  induction fuel with
  | zero =>
    intro t p r _ h
    simp [QuadTree.Insert] at h
  | succ fuel ih =>
    intro t p r hWF h
    cases t with
    | leaf b c pts =>
      simp only [QuadTree.Insert] at h
      simp only [QuadTree.WF] at hWF
      obtain ⟨hc1, hlen0, hin⟩ := hWF
      by_cases hc : b.Contains p = true
      · rw [if_pos hc] at h
        by_cases hlen : (pts ++ [p]).length > c
        · rw [if_pos hlen] at h
          split at h
          · exact absurd h (by simp)
          · rename_i nw' ne' sw' se' heq
            have hch0 : ChildrenOK b c
                (NewQuadTree b.nwChild (c : ℤ), NewQuadTree b.neChild (c : ℤ),
                  NewQuadTree b.swChild (c : ℤ), NewQuadTree b.seChild (c : ℤ)) := by
              rw [childrenOK_mk]
              exact ⟨newQuadTree_boundary _ _, newQuadTree_boundary _ _,
                newQuadTree_boundary _ _, newQuadTree_boundary _ _,
                newQuadTree_capacity _ c hc1, newQuadTree_capacity _ c hc1,
                newQuadTree_capacity _ c hc1, newQuadTree_capacity _ c hc1,
                newQuadTree_WF _ _, newQuadTree_WF _ _, newQuadTree_WF _ _,
                newQuadTree_WF _ _⟩
            have hall : ∀ q ∈ pts ++ [p], b.Contains q = true := by
              intro q hq
              rcases List.mem_append.mp hq with hq | hq
              · exact hin q hq
              · rw [List.mem_singleton.mp hq]; exact hc
            obtain ⟨hch', hm⟩ := insertListWith_spec _ ih b c (pts ++ [p]) _ _ _ _
              (nw', ne', sw', se') hch0 hall heq
            rw [childrenOK_mk] at hch'
            obtain ⟨bnw, bne, bsw, bse, cnw, cne, csw, cse, wnw, wne, wsw, wse⟩ := hch'
            simp only [Option.some.injEq] at h
            subst h
            rw [insOut_mk]
            refine ⟨?_, rfl, rfl, ?_, ?_, ?_⟩
            · rw [wf_node_mk]
              exact ⟨hc1, rfl, bnw, bne, bsw, bse, cnw, cne, csw, cse, wnw, wne, wsw, wse⟩
            · exact hc.symm
            · intro _
              show (↑(QuadTree.node b c [] nw' ne' sw' se').allPoints : Multiset Point) =
                p ::ₘ ↑pts
              simp only [QuadTree.allPoints, List.nil_append]
              have hm' : fourPoints (nw', ne', sw', se') =
                  ↑(pts ++ [p]) + fourPoints
                    (NewQuadTree b.nwChild (c : ℤ), NewQuadTree b.neChild (c : ℤ),
                      NewQuadTree b.swChild (c : ℤ), NewQuadTree b.seChild (c : ℤ)) := hm
              rw [fourPoints_mk] at hm'
              simp only [fourPoints_mk, newQuadTree_allPoints, Multiset.coe_nil] at hm'
              simp only [← Multiset.coe_add] at hm'
              simp only [← Multiset.coe_add]
              rw [hm']
              simp only [← Multiset.cons_coe, ← Multiset.singleton_add]
              abel
            · intro hfalse
              exact absurd hfalse (by simp)
        · rw [if_neg hlen] at h
          simp only [Option.some.injEq] at h
          subst h
          rw [insOut_mk]
          refine ⟨?_, rfl, rfl, hc.symm, ?_, ?_⟩
          · rw [wf_leaf_mk]
            refine ⟨hc1, Nat.le_of_not_lt hlen, ?_⟩
            intro q hq
            rcases List.mem_append.mp hq with hq | hq
            · exact hin q hq
            · rw [List.mem_singleton.mp hq]; exact hc
          · intro _
            show (↑(pts ++ [p]) : Multiset Point) = p ::ₘ ↑pts
            simp only [← Multiset.coe_add, ← Multiset.cons_coe, ← Multiset.singleton_add]
            abel
          · intro hfalse
            exact absurd hfalse (by simp)
      · rw [if_neg hc] at h
        simp only [Option.some.injEq] at h
        subst h
        rw [insOut_mk]
        refine ⟨?_, rfl, rfl, ?_, ?_, fun _ => rfl⟩
        · rw [wf_leaf_mk]
          exact ⟨hc1, hlen0, hin⟩
        · exact (boolFalse fun hh => hc hh).symm
        · intro hfalse
          exact absurd hfalse (by simp)
    | node b c pts nw ne sw se =>
      simp only [QuadTree.Insert] at h
      have hWFn := hWF
      simp only [QuadTree.WF] at hWF
      obtain ⟨hc1, hpts, bnw, bne, bsw, bse, cnw, cne, csw, cse, wnw, wne, wsw, wse⟩ := hWF
      by_cases hc : b.Contains p = true
      · rw [if_pos hc] at h
        split at h
        · exact absurd h (by simp)
        · rename_i ok1 nw' ne' sw' se' heq
          have hch : ChildrenOK b c (nw, ne, sw, se) := by
            rw [childrenOK_mk]
            exact ⟨bnw, bne, bsw, bse, cnw, cne, csw, cse, wnw, wne, wsw, wse⟩
          obtain ⟨hok, hch', hm⟩ := tryChildrenWith_spec _ ih b c nw ne sw se p hch hc
            (ok1, nw', ne', sw', se') heq
          rw [childrenOK_mk] at hch'
          obtain ⟨bnw', bne', bsw', bse', cnw', cne', csw', cse', wnw', wne', wsw', wse'⟩ := hch'
          have hok1 : ok1 = true := hok
          subst hok1
          simp only [Option.some.injEq] at h
          subst h
          rw [insOut_mk]
          refine ⟨?_, rfl, rfl, hc.symm, ?_, ?_⟩
          · rw [wf_node_mk]
            exact ⟨hc1, hpts, bnw', bne', bsw', bse', cnw', cne', csw', cse',
              wnw', wne', wsw', wse'⟩
          · intro _
            show (↑(QuadTree.node b c pts nw' ne' sw' se').allPoints : Multiset Point) =
              p ::ₘ ↑(QuadTree.node b c pts nw ne sw se).allPoints
            subst hpts
            simp only [QuadTree.allPoints, List.nil_append]
            have hm' : fourPoints (nw', ne', sw', se') =
                p ::ₘ fourPoints (nw, ne, sw, se) := hm
            rw [fourPoints_mk, fourPoints_mk] at hm'
            simp only [← Multiset.coe_add]
            rw [hm']
          · intro hfalse
            exact absurd hfalse (by simp)
      · rw [if_neg hc] at h
        simp only [Option.some.injEq] at h
        subst h
        rw [insOut_mk]
        refine ⟨hWFn, rfl, rfl, ?_, ?_, fun _ => rfl⟩
        · exact (boolFalse fun hh => hc hh).symm
        · intro hfalse
          exact absurd hfalse (by simp)

theorem remove_spec : ∀ (t : QuadTree) (p : Point), t.WF →
    (t.Remove p).2.WF ∧ (t.Remove p).2.boundary = t.boundary ∧
    (t.Remove p).2.capacity = t.capacity ∧
    ((t.Remove p).1 = false → (t.Remove p).2 = t) ∧
    ((t.Remove p).1 = true →
      (↑t.allPoints : Multiset Point) = p ::ₘ ↑(t.Remove p).2.allPoints) ∧
    ((t.Remove p).1 = true ↔ p ∈ t.allPoints) := by
  intro t
  induction t with
  | leaf b c pts =>
    intro p hWF
    rw [wf_leaf_mk] at hWF
    obtain ⟨hc1, hlen, hin⟩ := hWF
    by_cases hc : b.Contains p = true
    · cases hidx : findMatchIdx pts p with
      | none =>
        have hnp : p ∉ pts := (findMatchIdx_none pts p).mp hidx
        have hres : (QuadTree.leaf b c pts).Remove p = (false, QuadTree.leaf b c pts) := by
          simp only [QuadTree.Remove, if_pos hc, hidx]
        rw [hres]
        refine ⟨?_, rfl, rfl, fun _ => rfl, ?_, ?_⟩
        · rw [wf_leaf_mk]; exact ⟨hc1, hlen, hin⟩
        · intro hfalse; exact absurd hfalse (by simp)
        · constructor
          · intro hfalse; exact absurd hfalse (by simp)
          · intro hmem
            exact absurd (by simpa [QuadTree.allPoints] using hmem) hnp
      | some i =>
        have hgot : pts[i]? = some p := findMatchIdx_some pts p i hidx
        have hmem : p ∈ pts := List.getElem?_mem hgot
        have hms := swapPop_multiset pts i p p hgot
        have hlt : i < pts.length := by
          by_contra hh
          rw [List.getElem?_eq_none (Nat.le_of_not_lt hh)] at hgot
          exact absurd hgot (by simp)
        have hres : (QuadTree.leaf b c pts).Remove p =
            (true, QuadTree.leaf b c (swapPop pts i p)) := by
          simp only [QuadTree.Remove, if_pos hc, hidx]
        rw [hres]
        refine ⟨?_, rfl, rfl, ?_, ?_, ?_⟩
        · rw [wf_leaf_mk]
          refine ⟨hc1, ?_, ?_⟩
          · simp only [swapPop, List.length_dropLast, List.length_set]
            omega
          · intro q hq
            have hq2 : q ∈ pts := by
              have hq1 : q ∈ (↑pts : Multiset Point) := by
                rw [hms]
                exact Multiset.mem_cons_of_mem (by exact_mod_cast hq)
              exact_mod_cast hq1
            exact hin q hq2
        · intro hfalse; exact absurd hfalse (by simp)
        · intro _; exact hms
        · exact ⟨fun _ => hmem, fun _ => rfl⟩
    · have hres : (QuadTree.leaf b c pts).Remove p = (false, QuadTree.leaf b c pts) := by
        simp only [QuadTree.Remove, if_neg hc]
      rw [hres]
      refine ⟨?_, rfl, rfl, fun _ => rfl, ?_, ?_⟩
      · rw [wf_leaf_mk]; exact ⟨hc1, hlen, hin⟩
      · intro hfalse; exact absurd hfalse (by simp)
      · constructor
        · intro hfalse; exact absurd hfalse (by simp)
        · intro hmem
          exact absurd (hin p (by simpa [QuadTree.allPoints] using hmem)) hc
  | node b c pts nw ne sw se ihnw ihne ihsw ihse =>
    intro p hWF
    have hWFn := hWF
    rw [wf_node_mk] at hWF
    obtain ⟨hc1, hpts, bnw, bne, bsw, bse, cnw, cne, csw, cse, wnw, wne, wsw, wse⟩ := hWF
    by_cases hc : b.Contains p = true
    · obtain ⟨wnw', bnw', cnw', idnw, msnw, iffnw⟩ := ihnw p wnw
      obtain ⟨wne', bne', cne', idne, msne, iffne⟩ := ihne p wne
      obtain ⟨wsw', bsw', csw', idsw, mssw, iffsw⟩ := ihsw p wsw
      obtain ⟨wse', bse', cse', idse, msse, iffse⟩ := ihse p wse
      rcases hnw : nw.Remove p with ⟨onw, nw'⟩
      rw [hnw] at wnw' bnw' cnw' idnw msnw iffnw
      cases onw with
      | true =>
        have hres : (QuadTree.node b c pts nw ne sw se).Remove p =
            (true, QuadTree.node b c pts nw' ne sw se) := by
          simp only [QuadTree.Remove, if_pos hc, hnw]
        rw [hres]
        refine ⟨?_, rfl, rfl, ?_, ?_, ?_⟩
        · rw [wf_node_mk]
          exact ⟨hc1, hpts, bnw'.trans bnw, bne, bsw, bse, cnw'.trans cnw, cne, csw, cse,
            wnw', wne, wsw, wse⟩
        · intro hfalse; exact absurd hfalse (by simp)
        · intro _
          subst hpts
          simp only [QuadTree.allPoints, List.nil_append, ← Multiset.coe_add]
          rw [msnw rfl]
          simp only [← Multiset.singleton_add]
          abel
        · constructor
          · intro _
            subst hpts
            simp only [QuadTree.allPoints, List.nil_append, List.mem_append]
            exact Or.inl (Or.inl (Or.inl (iffnw.mp rfl)))
          · intro _; rfl
      | false =>
        have hid1 : nw' = nw := idnw rfl
        rcases hne2 : ne.Remove p with ⟨one, ne'⟩
        rw [hne2] at wne' bne' cne' idne msne iffne
        cases one with
        | true =>
          have hres : (QuadTree.node b c pts nw ne sw se).Remove p =
              (true, QuadTree.node b c pts nw ne' sw se) := by
            simp only [QuadTree.Remove, if_pos hc, hnw, hne2, hid1]
          rw [hres]
          refine ⟨?_, rfl, rfl, ?_, ?_, ?_⟩
          · rw [wf_node_mk]
            exact ⟨hc1, hpts, bnw, bne'.trans bne, bsw, bse, cnw, cne'.trans cne, csw, cse,
              wnw, wne', wsw, wse⟩
          · intro hfalse; exact absurd hfalse (by simp)
          · intro _
            subst hpts
            simp only [QuadTree.allPoints, List.nil_append, ← Multiset.coe_add]
            rw [msne rfl]
            simp only [← Multiset.singleton_add]
            abel
          · constructor
            · intro _
              subst hpts
              simp only [QuadTree.allPoints, List.nil_append, List.mem_append]
              exact Or.inl (Or.inl (Or.inr (iffne.mp rfl)))
            · intro _; rfl
        | false =>
          have hid2 : ne' = ne := idne rfl
          rcases hsw2 : sw.Remove p with ⟨osw, sw'⟩
          rw [hsw2] at wsw' bsw' csw' idsw mssw iffsw
          cases osw with
          | true =>
            have hres : (QuadTree.node b c pts nw ne sw se).Remove p =
                (true, QuadTree.node b c pts nw ne sw' se) := by
              simp only [QuadTree.Remove, if_pos hc, hnw, hne2, hsw2, hid1, hid2]
            rw [hres]
            refine ⟨?_, rfl, rfl, ?_, ?_, ?_⟩
            · rw [wf_node_mk]
              exact ⟨hc1, hpts, bnw, bne, bsw'.trans bsw, bse, cnw, cne, csw'.trans csw, cse,
                wnw, wne, wsw', wse⟩
            · intro hfalse; exact absurd hfalse (by simp)
            · intro _
              subst hpts
              simp only [QuadTree.allPoints, List.nil_append, ← Multiset.coe_add]
              rw [mssw rfl]
              simp only [← Multiset.singleton_add]
              abel
            · constructor
              · intro _
                subst hpts
                simp only [QuadTree.allPoints, List.nil_append, List.mem_append]
                exact Or.inl (Or.inr (iffsw.mp rfl))
              · intro _; rfl
          | false =>
            have hid3 : sw' = sw := idsw rfl
            rcases hse2 : se.Remove p with ⟨ose, se'⟩
            rw [hse2] at wse' bse' cse' idse msse iffse
            cases ose with
            | true =>
              have hres : (QuadTree.node b c pts nw ne sw se).Remove p =
                  (true, QuadTree.node b c pts nw ne sw se') := by
                simp only [QuadTree.Remove, if_pos hc, hnw, hne2, hsw2, hse2,
                  hid1, hid2, hid3]
              rw [hres]
              refine ⟨?_, rfl, rfl, ?_, ?_, ?_⟩
              · rw [wf_node_mk]
                exact ⟨hc1, hpts, bnw, bne, bsw, bse'.trans bse, cnw, cne, csw,
                  cse'.trans cse, wnw, wne, wsw, wse'⟩
              · intro hfalse; exact absurd hfalse (by simp)
              · intro _
                subst hpts
                simp only [QuadTree.allPoints, List.nil_append, ← Multiset.coe_add]
                rw [msse rfl]
                simp only [← Multiset.singleton_add]
                abel
              · constructor
                · intro _
                  subst hpts
                  simp only [QuadTree.allPoints, List.nil_append, List.mem_append]
                  exact Or.inr (iffse.mp rfl)
                · intro _; rfl
            | false =>
              have hid4 : se' = se := idse rfl
              have hres : (QuadTree.node b c pts nw ne sw se).Remove p =
                  (false, QuadTree.node b c pts nw ne sw se) := by
                simp only [QuadTree.Remove, if_pos hc, hnw, hne2, hsw2, hse2,
                  hid1, hid2, hid3, hid4]
              rw [hres]
              refine ⟨hWFn, rfl, rfl, fun _ => rfl, ?_, ?_⟩
              · intro hfalse; exact absurd hfalse (by simp)
              · constructor
                · intro hfalse; exact absurd hfalse (by simp)
                · intro hmem
                  subst hpts
                  simp only [QuadTree.allPoints, List.nil_append, List.mem_append] at hmem
                  rcases hmem with ((hm | hm) | hm) | hm
                  · exact absurd (iffnw.mpr hm) (by simp)
                  · exact absurd (iffne.mpr hm) (by simp)
                  · exact absurd (iffsw.mpr hm) (by simp)
                  · exact absurd (iffse.mpr hm) (by simp)
    · have hres : (QuadTree.node b c pts nw ne sw se).Remove p =
          (false, QuadTree.node b c pts nw ne sw se) := by
        simp only [QuadTree.Remove, if_neg hc]
      rw [hres]
      refine ⟨hWFn, rfl, rfl, fun _ => rfl, ?_, ?_⟩
      · intro hfalse; exact absurd hfalse (by simp)
      · constructor
        · intro hfalse; exact absurd hfalse (by simp)
        · intro hmem
          have hcc := allPoints_contains _ hWFn p hmem
          simp only [QuadTree.boundary] at hcc
          exact absurd hcc hc

theorem reachable_WF : ∀ t : QuadTree, Reachable t → t.WF := by
  intro t h
  induction h with
  | new b c => exact newQuadTree_WF b c
  | ins t p fuel ok t2 ht hins ihw => exact (insert_spec fuel t p (ok, t2) ihw hins).1
  | rem t p ht ihw => exact (remove_spec t p ihw).1

theorem countP_matchPoint (l : List Point) (p : Point) :
    l.countP (fun q => matchPoint q p) = Multiset.count p (↑l : Multiset Point) := by
  rw [Multiset.coe_count]
  induction l with
  | nil => simp
  | cons a rest ih =>
    rw [List.countP_cons, List.count_cons, ih]
    congr 1
    by_cases h : a = p
    · rw [if_pos ((matchPoint_iff a p).mpr h), if_pos (by simp [h])]
    · rw [if_neg (fun hh => h ((matchPoint_iff a p).mp hh)),
        if_neg (by simp only [beq_iff_eq]; exact h)]

theorem query_eq_filter (t : QuadTree) (h : t.WF) (r : Boundary) :
    t.Query r = t.allPoints.filter (fun p => r.Contains p) :=
  queryRecursive_eq_filter t h r

def worldB : Boundary := ⟨0, 0, 100, 100⟩

def sampleP : Point := ⟨-50, 50, 1⟩

def sampleTree : QuadTree := QuadTree.leaf worldB 2 [sampleP]

theorem worldB_contains_sampleP : worldB.Contains sampleP = true := by
  rw [contains_iff]
  norm_num [worldB, sampleP]

theorem newQuadTree_worldB : NewQuadTree worldB 2 = QuadTree.leaf worldB 2 [] := by
  simp [NewQuadTree]

theorem insert_eval :
    QuadTree.Insert 1 (NewQuadTree worldB 2) sampleP = some (true, sampleTree) := by
  rw [newQuadTree_worldB]
  simp only [QuadTree.Insert, worldB_contains_sampleP]
  norm_num [sampleTree]

theorem sampleReach : Reachable sampleTree :=
  Reachable.ins (NewQuadTree worldB 2) sampleP 1 true sampleTree
    (Reachable.new worldB 2) insert_eval

theorem sampleP_mem : sampleP ∈ sampleTree.allPoints := by
  simp [sampleTree, QuadTree.allPoints]

theorem count_eval : Multiset.count sampleP (↑sampleTree.allPoints : Multiset Point) = 1 := by
  simp [sampleTree, QuadTree.allPoints]

theorem hzero_eval :
    (NewQuadTree worldB 2).allPoints.countP (fun q => matchPoint q sampleP) = 0 := by
  rw [newQuadTree_allPoints]
  rfl

/-- Claim C1: for every reachable tree and query rectangle, Query returns,
as a multiset, exactly the stored points satisfying the rectangle's
half-open Contains; in particular the Intersects pruning never skips a
matching point. -/
theorem C1_query_exact (t : QuadTree) (r : Boundary) (h : Reachable t) :
    (↑(t.Query r) : Multiset Point) =
      ↑(t.allPoints.filter (fun p => r.Contains p)) := by
  rw [query_eq_filter t (reachable_WF t h) r]

theorem C1_witness :
    Reachable (NewQuadTree worldB 2) ∧
    (↑((NewQuadTree worldB 2).Query worldB) : Multiset Point) =
      ↑((NewQuadTree worldB 2).allPoints.filter (fun p => worldB.Contains p)) :=
  ⟨Reachable.new worldB 2,
    C1_query_exact (NewQuadTree worldB 2) worldB (Reachable.new worldB 2)⟩

/-- Claim C2: on every reachable tree, a completed Insert returns false
exactly when the point falls outside the root boundary under the half-open
Contains, and returns true exactly when the point is stored afterwards. -/
theorem C2_insert_contract (t : QuadTree) (p : Point) (fuel : ℕ) (ok : Bool)
    (t' : QuadTree) (h : Reachable t)
    (hins : QuadTree.Insert fuel t p = some (ok, t')) :
    (ok = false ↔ t.boundary.Contains p = false) ∧ (ok = true ↔ p ∈ t'.allPoints) := by
  have hWF := reachable_WF t h
  have hio := insert_spec fuel t p (ok, t') hWF hins
  rw [insOut_mk] at hio
  obtain ⟨-, -, -, hflag, hms, hid⟩ := hio
  constructor
  · constructor
    · intro ho; rw [ho] at hflag; exact hflag.symm
    · intro hcf; rw [hcf] at hflag; exact hflag
  · constructor
    · intro ho
      have hm := hms ho
      have hpm : p ∈ (↑t'.allPoints : Multiset Point) := by
        rw [hm]; exact Multiset.mem_cons_self p _
      exact Multiset.mem_coe.mp hpm
    · intro hmem
      cases hok : ok with
      | true => rfl
      | false =>
        rw [hok] at hflag hid
        have ht' := hid rfl
        rw [ht'] at hmem
        have hcc := allPoints_contains t hWF p hmem
        rw [hcc] at hflag
        exact absurd hflag (by simp)

theorem C2_witness :
    Reachable (NewQuadTree worldB 2) ∧
    QuadTree.Insert 1 (NewQuadTree worldB 2) sampleP = some (true, sampleTree) ∧
    ((true = false ↔ (NewQuadTree worldB 2).boundary.Contains sampleP = false) ∧
      (true = true ↔ sampleP ∈ sampleTree.allPoints)) :=
  ⟨Reachable.new worldB 2, insert_eval,
    C2_insert_contract (NewQuadTree worldB 2) sampleP 1 true sampleTree
      (Reachable.new worldB 2) insert_eval⟩

/-- Claim C3 counterexample: the claim asserts a point on a node's upper
edge (x = cx+hw or y = cy+hh) satisfies the node's Contains predicate; at
the concrete node centered (0,0) with half-extents (1,1) both such edge
points are rejected by the half-open Contains, so the claimed state is
unreachable. -/
theorem C3_counterexample :
    Boundary.Contains ⟨0, 0, 1, 1⟩ ⟨1, 0, 0⟩ = false ∧
    Boundary.Contains ⟨0, 0, 1, 1⟩ ⟨0, 1, 0⟩ = false := by
  constructor
  · refine boolFalse fun hh => ?_
    rw [contains_iff] at hh
    norm_num at hh
  · refine boolFalse fun hh => ?_
    rw [contains_iff] at hh
    norm_num at hh

/-- Claim C3 amended: no point satisfying a node's Contains lies on the
upper edge (x = cx+hw or y = cy+hh), and every point satisfying the
parent's Contains is accepted by exactly one subdivide child, so
redistribution never drops a point. -/
theorem C3_amended_no_drop (b : Boundary) (p : Point) (h : b.Contains p = true) :
    (p.x ≠ b.x + b.width ∧ p.y ≠ b.y + b.height) ∧
      b.childList.countP (fun cb => cb.Contains p) = 1 := by
  have hiff := (contains_iff b p).mp h
  obtain ⟨-, h2, -, h4⟩ := hiff
  refine ⟨⟨?_, ?_⟩, ?_⟩
  · intro hh; rw [hh] at h2; exact absurd h2 (lt_irrefl _)
  · intro hh; rw [hh] at h4; exact absurd h4 (lt_irrefl _)
  · rw [childList_countP, if_pos h]

theorem C3_amended_witness :
    worldB.Contains sampleP = true ∧
    ((sampleP.x ≠ worldB.x + worldB.width ∧ sampleP.y ≠ worldB.y + worldB.height) ∧
      worldB.childList.countP (fun cb => cb.Contains sampleP) = 1) :=
  ⟨worldB_contains_sampleP, C3_amended_no_drop worldB sampleP worldB_contains_sampleP⟩

/-- Claim C4: the four subdivide children tile the parent exactly without
overlap under the half-open Contains (a point is in the parent iff exactly
one child accepts it, and never more than one child accepts), and every
point stored in a reachable tree is contained by exactly one leaf
boundary. -/
theorem C4_partition :
    (∀ (b : Boundary) (p : Point),
        b.Contains p = true ↔ b.childList.countP (fun cb => cb.Contains p) = 1) ∧
    (∀ (b : Boundary) (p : Point), b.childList.countP (fun cb => cb.Contains p) ≤ 1) ∧
    (∀ (t : QuadTree) (p : Point), Reachable t → p ∈ t.allPoints →
        t.leafBoundaries.countP (fun lb => lb.Contains p) = 1) := by
  refine ⟨?_, ?_, ?_⟩
  · intro b p
    constructor
    · intro h; rw [childList_countP, if_pos h]
    · intro h
      by_contra hcn
      rw [childList_countP, if_neg hcn] at h
      exact absurd h (by simp)
  · intro b p
    rw [childList_countP]
    split_ifs <;> omega
  · intro t p ht hp
    have hWF := reachable_WF t ht
    rw [leafBoundaries_countP t hWF p, if_pos (allPoints_contains t hWF p hp)]

theorem C4_witness :
    Reachable sampleTree ∧ sampleP ∈ sampleTree.allPoints ∧
      sampleTree.leafBoundaries.countP (fun lb => lb.Contains sampleP) = 1 :=
  ⟨sampleReach, sampleP_mem, C4_partition.2.2 sampleTree sampleP sampleReach sampleP_mem⟩

/-- Claim C5: after any completed Insert on a reachable tree, every leaf
bucket is within its capacity and every internal node's bucket is empty. -/
theorem C5_buckets (t : QuadTree) (p : Point) (fuel : ℕ) (ok : Bool) (t' : QuadTree)
    (h : Reachable t) (hins : QuadTree.Insert fuel t p = some (ok, t')) :
    t'.BucketsOK := by
  have hWF := reachable_WF t h
  exact wf_bucketsOK t' (insert_spec fuel t p (ok, t') hWF hins).1

theorem C5_witness :
    Reachable (NewQuadTree worldB 2) ∧
    QuadTree.Insert 1 (NewQuadTree worldB 2) sampleP = some (true, sampleTree) ∧
    sampleTree.BucketsOK :=
  ⟨Reachable.new worldB 2, insert_eval,
    C5_buckets (NewQuadTree worldB 2) sampleP 1 true sampleTree
      (Reachable.new worldB 2) insert_eval⟩

/-- Claim C6: on every reachable tree, Remove returns true exactly when
some stored entry matches the argument by strict equality on x, y and
payload, and after a successful Remove of the only matching entry a second
Remove of the same point returns false. -/
theorem C6_remove_contract (t : QuadTree) (p : Point) (h : Reachable t) :
    ((t.Remove p).1 = true ↔ ∃ q ∈ t.allPoints, matchPoint q p = true) ∧
    (t.allPoints.countP (fun q => matchPoint q p) = 1 → (t.Remove p).1 = true →
      (((t.Remove p).2).Remove p).1 = false) := by
  have hWF := reachable_WF t h
  obtain ⟨hWF1, -, -, -, hms, hiff⟩ := remove_spec t p hWF
  refine ⟨?_, ?_⟩
  · rw [hiff]
    constructor
    · intro hmem; exact ⟨p, hmem, (matchPoint_iff p p).mpr rfl⟩
    · rintro ⟨q, hq, hqm⟩
      have hqp : q = p := (matchPoint_iff q p).mp hqm
      rw [hqp] at hq
      exact hq
  · intro hcount hrem
    obtain ⟨-, -, -, -, -, hiff2⟩ := remove_spec (t.Remove p).2 p hWF1
    have hc1 : Multiset.count p (↑t.allPoints : Multiset Point) = 1 := by
      rw [← countP_matchPoint]; exact hcount
    have hmc := hms hrem
    rw [hmc, Multiset.count_cons_self] at hc1
    refine boolFalse fun htrue => ?_
    have hp2 := hiff2.mp htrue
    have hpos : 0 < Multiset.count p (↑((t.Remove p).2).allPoints : Multiset Point) := by
      rw [Multiset.count_pos]; exact Multiset.mem_coe.mpr hp2
    omega

theorem C6_witness :
    Reachable sampleTree ∧
      ((sampleTree.Remove sampleP).1 = true ↔
        ∃ q ∈ sampleTree.allPoints, matchPoint q sampleP = true) :=
  ⟨sampleReach, (C6_remove_contract sampleTree sampleP sampleReach).1⟩

/-- Claim C7: inserting a point into a reachable tree holding no entry
equal to it and then removing it leaves a tree whose whole-world query does
not contain the point. -/
theorem C7_remove_inverts_insert (t : QuadTree) (p : Point) (fuel : ℕ) (ok : Bool)
    (t1 : QuadTree) (h : Reachable t)
    (hzero : t.allPoints.countP (fun q => matchPoint q p) = 0)
    (hins : QuadTree.Insert fuel t p = some (ok, t1)) :
    p ∉ ((t1.Remove p).2).Query t.boundary := by
  have hWF := reachable_WF t h
  have hio := insert_spec fuel t p (ok, t1) hWF hins
  rw [insOut_mk] at hio
  obtain ⟨hWF1, -, -, hflag, hms, hid⟩ := hio
  have hc0 : Multiset.count p (↑t.allPoints : Multiset Point) = 0 := by
    rw [← countP_matchPoint]; exact hzero
  obtain ⟨hWF2, -, -, hid2, hms2, hiff2⟩ := remove_spec t1 p hWF1
  have hcnt2 : Multiset.count p (↑((t1.Remove p).2).allPoints : Multiset Point) = 0 := by
    cases hok : ok with
    | true =>
      have hm1 := hms hok
      have h1 : Multiset.count p (↑t1.allPoints : Multiset Point) = 1 := by
        rw [hm1, Multiset.count_cons_self, hc0]
      have hmem1 : p ∈ t1.allPoints := by
        have hpos : 0 < Multiset.count p (↑t1.allPoints : Multiset Point) := by omega
        rw [Multiset.count_pos] at hpos
        exact Multiset.mem_coe.mp hpos
      have hrem := hiff2.mpr hmem1
      have hm2 := hms2 hrem
      rw [hm2, Multiset.count_cons_self] at h1
      omega
    | false =>
      have ht1 : t1 = t := hid hok
      have hcnt1 : Multiset.count p (↑t1.allPoints : Multiset Point) = 0 := by
        rw [ht1]; exact hc0
      have hmem : p ∉ t1.allPoints := by
        intro hmem
        have hpos : 0 < Multiset.count p (↑t1.allPoints : Multiset Point) := by
          rw [Multiset.count_pos]; exact Multiset.mem_coe.mpr hmem
        omega
      have hrem : (t1.Remove p).1 = false :=
        boolFalse fun htrue => hmem (hiff2.mp htrue)
      rw [hid2 hrem]
      exact hcnt1
  intro hq
  rw [query_eq_filter _ hWF2 _] at hq
  have hmem3 : p ∈ ((t1.Remove p).2).allPoints := List.mem_of_mem_filter hq
  have hpos : 0 < Multiset.count p (↑((t1.Remove p).2).allPoints : Multiset Point) := by
    rw [Multiset.count_pos]; exact Multiset.mem_coe.mpr hmem3
  omega

theorem C7_witness :
    Reachable (NewQuadTree worldB 2) ∧
    (NewQuadTree worldB 2).allPoints.countP (fun q => matchPoint q sampleP) = 0 ∧
    QuadTree.Insert 1 (NewQuadTree worldB 2) sampleP = some (true, sampleTree) ∧
    sampleP ∉ ((sampleTree.Remove sampleP).2).Query (NewQuadTree worldB 2).boundary :=
  ⟨Reachable.new worldB 2, hzero_eval, insert_eval,
    C7_remove_inverts_insert (NewQuadTree worldB 2) sampleP 1 true sampleTree
      (Reachable.new worldB 2) hzero_eval insert_eval⟩

/-- Claim C8: Intersects holds exactly when none of the four half-open
separation conditions holds; edge-adjacent rectangles are not reported as
intersecting; and two rectangles sharing a common point under Contains do
intersect. -/
theorem C8_intersects (a other : Boundary) :
    (a.Intersects other = true ↔
      ¬(a.x + a.width ≤ other.x - other.width ∨
        other.x + other.width ≤ a.x - a.width ∨
        a.y + a.height ≤ other.y - other.height ∨
        other.y + other.height ≤ a.y - a.height)) ∧
    ((a.x + a.width = other.x - other.width ∨ other.x + other.width = a.x - a.width ∨
        a.y + a.height = other.y - other.height ∨ other.y + other.height = a.y - a.height) →
      a.Intersects other = false) ∧
    (∀ p : Point, a.Contains p = true → other.Contains p = true →
      a.Intersects other = true) := by
  refine ⟨intersects_iff a other, ?_, ?_⟩
  · intro hedge
    refine boolFalse fun htrue => ?_
    have hsep := (intersects_iff a other).mp htrue
    rcases hedge with he | he | he | he
    · exact hsep (Or.inl (le_of_eq he))
    · exact hsep (Or.inr (Or.inl (le_of_eq he)))
    · exact hsep (Or.inr (Or.inr (Or.inl (le_of_eq he))))
    · exact hsep (Or.inr (Or.inr (Or.inr (le_of_eq he))))
  · intro p hpa hpb
    exact contains_both_intersects a other p hpa hpb

theorem C8_witness :
    Boundary.Contains ⟨0, 0, 2, 2⟩ ⟨1, 1, 0⟩ = true ∧
    Boundary.Contains ⟨1, 1, 2, 2⟩ ⟨1, 1, 0⟩ = true ∧
    Boundary.Intersects ⟨0, 0, 2, 2⟩ ⟨1, 1, 2, 2⟩ = true ∧
    Boundary.Intersects ⟨0, 0, 1, 1⟩ ⟨2, 0, 1, 1⟩ = false := by
  have h1 : Boundary.Contains ⟨0, 0, 2, 2⟩ ⟨1, 1, 0⟩ = true := by
    rw [contains_iff]; norm_num
  have h2 : Boundary.Contains ⟨1, 1, 2, 2⟩ ⟨1, 1, 0⟩ = true := by
    rw [contains_iff]; norm_num
  exact ⟨h1, h2, (C8_intersects _ _).2.2 ⟨1, 1, 0⟩ h1 h2,
    (C8_intersects _ _).2.1 (Or.inl (by norm_num))⟩

/-- Claim C9: the query traversal never mutates the tree: threading the
node state through the recursion returns the tree unchanged (structure,
boundaries, capacities and buckets identical), while the accumulator
collects exactly the query results. -/
theorem C9_query_pure : ∀ (t : QuadTree) (r : Boundary) (acc : List Point),
    t.queryRecursiveS r acc = (t, acc ++ t.queryRecursive r) := by
  intro t
  induction t with
  | leaf b c pts =>
    intro r acc
    simp only [QuadTree.queryRecursiveS, QuadTree.queryRecursive]
    by_cases hi : b.Intersects r = true
    · rw [if_pos hi, if_pos hi]
    · rw [if_neg hi, if_neg hi]
      simp
  | node b c pts nw ne sw se ihnw ihne ihsw ihse =>
    intro r acc
    simp only [QuadTree.queryRecursiveS, QuadTree.queryRecursive]
    by_cases hi : b.Intersects r = true
    · rw [if_pos hi, if_pos hi]
      simp only [ihnw, ihne, ihsw, ihse]
      simp [List.append_assoc]
    · rw [if_neg hi, if_neg hi]
      simp

/-- Claim C10: Remove removes at most one entry per call: on a reachable
tree holding k at least 1 entries equal to the argument, Remove returns true,
exactly k minus 1 equal entries remain, and the stored multiset loses exactly
one copy of the argument (all other entries unchanged). -/
theorem C10_remove_one (t : QuadTree) (p : Point) (k : ℕ) (h : Reachable t)
    (hcount : Multiset.count p (↑t.allPoints : Multiset Point) = k) (hk : 1 ≤ k) :
    (t.Remove p).1 = true ∧
    Multiset.count p (↑((t.Remove p).2).allPoints : Multiset Point) = k - 1 ∧
    (↑t.allPoints : Multiset Point) = p ::ₘ ↑((t.Remove p).2).allPoints := by
  have hWF := reachable_WF t h
  obtain ⟨-, -, -, -, hms, hiff⟩ := remove_spec t p hWF
  have hmem : p ∈ t.allPoints := by
    have hpos : 0 < Multiset.count p (↑t.allPoints : Multiset Point) := by omega
    rw [Multiset.count_pos] at hpos
    exact Multiset.mem_coe.mp hpos
  have hrem := hiff.mpr hmem
  have hmc := hms hrem
  refine ⟨hrem, ?_, hmc⟩
  rw [hmc, Multiset.count_cons_self] at hcount
  omega

theorem C10_witness :
    Reachable sampleTree ∧
    Multiset.count sampleP (↑sampleTree.allPoints : Multiset Point) = 1 ∧
    ((sampleTree.Remove sampleP).1 = true ∧
      Multiset.count sampleP (↑((sampleTree.Remove sampleP).2).allPoints : Multiset Point) = 0 ∧
      (↑sampleTree.allPoints : Multiset Point) =
        sampleP ::ₘ ↑((sampleTree.Remove sampleP).2).allPoints) :=
  ⟨sampleReach, count_eval,
    C10_remove_one sampleTree sampleP 1 sampleReach count_eval (le_refl 1)⟩

end GeoRunner
